import Mathlib

/-!
Verification of the AWS Lambda handler in `lambda/handler.py`:

```python
def lambda_handler(event, context):
    print("Received S3 event:", json.dumps(event, indent=2))
    # Add your processing logic here
    return {
        'statusCode': 200,
        'body': json.dumps('Success')
    }
```

The embedding models Python values that can be passed as the `event`
argument as a tree (`PyValue`), with an `obj` constructor standing for
any Python object that `json.dumps` cannot serialize (a set, a custom
class instance, ...).  `json.dumps(v, indent=2)` is embedded as
`dumpsVal 0 v` and `json.loads` as `loads`; serialization returns
`Option (List Char)`, with `none` modelling the `TypeError`
("Object of type ... is not JSON serializable") that `json.dumps`
raises on a non-serializable value — the spec's `SerializationError`.

Scope notes on the `json` model:
* Python numbers are modelled by `Int` (the claims do not depend on
  floating point); accordingly the parser accepts integer literals.
  It also accepts integer literals with leading zeros, which strict
  JSON rejects — serializer output never contains them.
* Python `str` is modelled by Lean's `String` (a sequence of Unicode
  scalar values).  `json.dumps` uses `ensure_ascii=True` by default:
  characters outside `0x20`–`0x7e` are `\uXXXX`-escaped, astral
  characters as a surrogate pair; the embedding mirrors this.  Lone
  surrogates are not representable in the model's strings, so the
  parser rejects escape sequences that denote them; serializer output
  never contains such sequences.
* Python `dict` keys in the JSON domain are strings, and a `dict`
  cannot hold the same key twice.  The parser returns object entries
  in input order (Python's `dict` would collapse duplicate keys, but
  serializer output of any value satisfying the `dict` invariant never
  contains duplicate keys, and no claim depends on that input).
-/

/-- A Python value as passed to `lambda_handler` as `event`.
`obj tag` stands for an arbitrary object that is not JSON
serializable, identified by its type name. -/
inductive PyValue where
  | none : PyValue
  | bool : Bool → PyValue
  | int : Int → PyValue
  | str : String → PyValue
  | list : List PyValue → PyValue
  | dict : List (String × PyValue) → PyValue
  | obj : String → PyValue
deriving Repr

/-- `n` spaces, as emitted by `json.dumps(..., indent=2)` for nesting. -/
def spaces (n : Nat) : List Char := List.replicate n ' '

/-- Lower-case hexadecimal digit, as produced by CPython's
`\uXXXX` escapes. -/
def hexDigitChar (n : Nat) : Char :=
  if n < 10 then Char.ofNat (48 + n) else Char.ofNat (87 + n)

/-- Four-digit lower-case hexadecimal rendering of `n < 0x10000`. -/
def hex4 (n : Nat) : List Char :=
  [hexDigitChar (n / 4096 % 16), hexDigitChar (n / 256 % 16),
   hexDigitChar (n / 16 % 16), hexDigitChar (n % 16)]

/-- How CPython's `json.dumps` (with the default `ensure_ascii=True`)
renders one character of a string: printable ASCII other than `"` and
backslash passes through, the two-character shortcuts are used for the
classic control characters, and every other character is
`\uXXXX`-escaped (astral characters as a UTF-16 surrogate pair). -/
def escapeChar (c : Char) : List Char :=
  if c = '"' then ['\\', '"']
  else if c = '\\' then ['\\', '\\']
  else if c.toNat = 8 then ['\\', 'b']
  else if c.toNat = 12 then ['\\', 'f']
  else if c = '\n' then ['\\', 'n']
  else if c.toNat = 13 then ['\\', 'r']
  else if c = '\t' then ['\\', 't']
  else if 32 ≤ c.toNat ∧ c.toNat ≤ 126 then [c]
  else if c.toNat < 65536 then '\\' :: 'u' :: hex4 c.toNat
  else
    ('\\' :: 'u' :: hex4 (55296 + (c.toNat - 65536) / 1024)) ++
    ('\\' :: 'u' :: hex4 (56320 + (c.toNat - 65536) % 1024))

/-- JSON rendering of a string: quotes around the escaped characters.
`json.dumps` produces exactly this for a `str` argument, with or
without `indent`. -/
def strChars (s : String) : List Char :=
  '"' :: (List.map escapeChar s.data).flatten ++ ['"']

/-- Decimal digits of a natural number, most significant first. -/
def natChars (n : Nat) : List Char :=
  if n < 10 then [Char.ofNat (48 + n)]
  else natChars (n / 10) ++ [Char.ofNat (48 + n % 10)]
decreasing_by simp_wf; omega

/-- Decimal rendering of an integer, as `json.dumps` prints Python ints. -/
def intChars (i : Int) : List Char :=
  if i < 0 then '-' :: natChars i.natAbs else natChars i.toNat

mutual
/-- `json.dumps(v, indent=2)` where `ind` is the current indentation
level (the handler calls it at top level, `ind = 0`): containers open
with a newline, put each element on its own line indented two spaces
deeper, separate elements with a comma before the newline, and close
on a fresh line at the enclosing indentation; `none` when the value
contains a non-serializable object (Python raises `TypeError`). -/
def dumpsVal : Nat → PyValue → Option (List Char)
  | _, PyValue.none => some ['n', 'u', 'l', 'l']
  | _, PyValue.bool true => some ['t', 'r', 'u', 'e']
  | _, PyValue.bool false => some ['f', 'a', 'l', 's', 'e']
  | _, PyValue.int i => some (intChars i)
  | _, PyValue.str s => some (strChars s)
  | _, PyValue.list [] => some ['[', ']']
  | ind, PyValue.list (v :: vs) =>
    match dumpsVal (ind + 2) v, dumpsTail (ind + 2) vs with
    | some first, some rest =>
      some ('[' :: '\n' ::
        (spaces (ind + 2) ++ first ++ rest ++ '\n' :: (spaces ind ++ [']'])))
    | _, _ => Option.none
  | _, PyValue.dict [] => some ['\x7b', '\x7d']
  | ind, PyValue.dict ((k, v) :: es) =>
    match dumpsVal (ind + 2) v, dumpsETail (ind + 2) es with
    | some first, some rest =>
      some ('\x7b' :: '\n' ::
        (spaces (ind + 2) ++ strChars k ++ ':' :: ' ' ::
          (first ++ rest ++ '\n' :: (spaces ind ++ ['\x7d']))))
    | _, _ => Option.none
  | _, PyValue.obj _ => Option.none

/-- The remaining elements of a non-empty array: for each, a comma,
a newline, the indentation, and the element. -/
def dumpsTail : Nat → List PyValue → Option (List Char)
  | _, [] => some []
  | ind, v :: vs =>
    match dumpsVal ind v, dumpsTail ind vs with
    | some s, some rest => some (',' :: '\n' :: (spaces ind ++ s ++ rest))
    | _, _ => Option.none

/-- The remaining entries of a non-empty object: for each, a comma,
a newline, the indentation, the quoted key, `: `, and the value. -/
def dumpsETail : Nat → List (String × PyValue) → Option (List Char)
  | _, [] => some []
  | ind, (k, v) :: es =>
    match dumpsVal ind v, dumpsETail ind es with
    | some s, some rest =>
      some (',' :: '\n' :: (spaces ind ++ strChars k ++ ':' :: ' ' :: (s ++ rest)))
    | _, _ => Option.none
end

mutual
/-- `json.dumps` succeeds on `v`: `v` is built only from `None`,
booleans, numbers, strings, lists and string-keyed dicts — the JSON
value domain. -/
def serializableV : PyValue → Bool
  | PyValue.list vs => serializableL vs
  | PyValue.dict es => serializableE es
  | PyValue.obj _ => false
  | _ => true

/-- Every element of the list is serializable. -/
def serializableL : List PyValue → Bool
  | [] => true
  | v :: vs => serializableV v && serializableL vs

/-- Every value of the association list is serializable. -/
def serializableE : List (String × PyValue) → Bool
  | [] => true
  | (_, v) :: es => serializableV v && serializableE es
end

/-- JSON whitespace, as skipped by `json.loads` between tokens. -/
def isWs (c : Char) : Bool := c = ' ' || c = '\t' || c = '\n' || c = '\r'

/-- Drop leading JSON whitespace. -/
def skipWs : List Char → List Char
  | [] => []
  | c :: cs => if isWs c then skipWs cs else c :: cs

/-- Value of a hexadecimal digit (either case), `none` otherwise. -/
def hexVal (c : Char) : Option Nat :=
  if 48 ≤ c.toNat ∧ c.toNat ≤ 57 then some (c.toNat - 48)
  else if 97 ≤ c.toNat ∧ c.toNat ≤ 102 then some (c.toNat - 87)
  else if 65 ≤ c.toNat ∧ c.toNat ≤ 70 then some (c.toNat - 55)
  else Option.none

/-- Read exactly four hexadecimal digits, as in a `\uXXXX` escape. -/
def parseHex4 : List Char → Option (Nat × List Char)
  | a :: b :: c :: d :: rest =>
    match hexVal a, hexVal b, hexVal c, hexVal d with
    | some x, some y, some z, some w =>
      some (x * 4096 + y * 256 + z * 16 + w, rest)
    | _, _, _, _ => Option.none
  | _ => Option.none

/-- The character denoted by a single-character escape `\e`. -/
def unescapeSimple : Char → Option Char
  | '"' => some '"'
  | '\\' => some '\\'
  | '/' => some '/'
  | 'b' => some (Char.ofNat 8)
  | 'f' => some (Char.ofNat 12)
  | 'n' => some '\n'
  | 'r' => some (Char.ofNat 13)
  | 't' => some '\t'
  | _ => Option.none

/-- Body of a JSON string after the opening quote, as `json.loads`
scans it: literal characters up to the closing quote, backslash
escapes, `\uXXXX` escapes with UTF-16 surrogate pairs recombined;
raw control characters are rejected (strict mode).  Escapes denoting
a lone surrogate are rejected, as the model's strings are sequences
of Unicode scalar values.  One unit of fuel is spent per decoded
character. -/
def parseStringBody : Nat → List Char → Option (List Char × List Char)
  | 0, _ => Option.none
  | _ + 1, [] => Option.none
  | fuel + 1, c :: cs =>
    if c = '"' then some ([], cs)
    else if c = '\\' then
      match cs with
      | 'u' :: cs2 =>
        match parseHex4 cs2 with
        | Option.none => Option.none
        | some (n, cs3) =>
          if 55296 ≤ n ∧ n ≤ 56319 then
            match cs3 with
            | '\\' :: 'u' :: cs4 =>
              match parseHex4 cs4 with
              | some (m, cs5) =>
                if 56320 ≤ m ∧ m ≤ 57343 then
                  (parseStringBody fuel cs5).map
                    (fun p =>
                      (Char.ofNat (65536 + (n - 55296) * 1024 + (m - 56320)) :: p.1,
                       p.2))
                else Option.none
              | Option.none => Option.none
            | _ => Option.none
          else if 56320 ≤ n ∧ n ≤ 57343 then Option.none
          else (parseStringBody fuel cs3).map (fun p => (Char.ofNat n :: p.1, p.2))
      | e :: cs2 =>
        match unescapeSimple e with
        | some ch => (parseStringBody fuel cs2).map (fun p => (ch :: p.1, p.2))
        | Option.none => Option.none
      | [] => Option.none
    else if c.toNat < 32 then Option.none
    else (parseStringBody fuel cs).map (fun p => (c :: p.1, p.2))

/-- Accumulate the value of a run of decimal digits. -/
def digitsVal (l : List Char) : Nat :=
  l.foldl (fun a c => a * 10 + (c.toNat - 48)) 0

/-- Read a non-empty run of decimal digits and its value. -/
def parseNatChars (l : List Char) : Option (Nat × List Char) :=
  match l.takeWhile Char.isDigit with
  | [] => Option.none
  | ds => some (digitsVal ds, l.dropWhile Char.isDigit)

mutual
/-- One JSON value, as decoded by `json.loads`: leading whitespace is
skipped, then the value is dispatched on its first character.  Fuel
decreases on every recursive step; `loads` supplies enough for any
input it can accept. -/
def parseVal : Nat → List Char → Option (PyValue × List Char)
  | 0, _ => Option.none
  | fuel + 1, s =>
    match skipWs s with
    | [] => Option.none
    | c :: cs =>
      if c = 'n' then
        match cs with
        | 'u' :: 'l' :: 'l' :: r => some (PyValue.none, r)
        | _ => Option.none
      else if c = 't' then
        match cs with
        | 'r' :: 'u' :: 'e' :: r => some (PyValue.bool true, r)
        | _ => Option.none
      else if c = 'f' then
        match cs with
        | 'a' :: 'l' :: 's' :: 'e' :: r => some (PyValue.bool false, r)
        | _ => Option.none
      else if c = '"' then
        (parseStringBody fuel cs).map
          (fun p => (PyValue.str (String.mk p.1), p.2))
      else if c = '[' then
        match skipWs cs with
        | ']' :: r => some (PyValue.list [], r)
        | _ => (parseItems fuel cs).map (fun p => (PyValue.list p.1, p.2))
      else if c = '\x7b' then
        match skipWs cs with
        | '\x7d' :: r => some (PyValue.dict [], r)
        | _ => (parseEntries fuel cs).map (fun p => (PyValue.dict p.1, p.2))
      else if c = '-' then
        match parseNatChars cs with
        | some (n, r) => some (PyValue.int (-(n : Int)), r)
        | Option.none => Option.none
      else if c.isDigit then
        match parseNatChars (c :: cs) with
        | some (n, r) => some (PyValue.int (n : Int), r)
        | Option.none => Option.none
      else Option.none

/-- The elements of a non-empty JSON array, after the opening
bracket: a value, then either a comma and more elements or the
closing bracket. -/
def parseItems : Nat → List Char → Option (List PyValue × List Char)
  | 0, _ => Option.none
  | fuel + 1, s =>
    match parseVal fuel s with
    | Option.none => Option.none
    | some (v, r) =>
      match skipWs r with
      | ',' :: r2 =>
        match parseItems fuel r2 with
        | some (vs, r3) => some (v :: vs, r3)
        | Option.none => Option.none
      | ']' :: r2 => some ([v], r2)
      | _ => Option.none

/-- The entries of a non-empty JSON object, after the opening brace:
a quoted key, a colon, a value, then either a comma and more entries
or the closing brace. -/
def parseEntries : Nat → List Char → Option (List (String × PyValue) × List Char)
  | 0, _ => Option.none
  | fuel + 1, s =>
    match skipWs s with
    | '"' :: cs =>
      match parseStringBody fuel cs with
      | Option.none => Option.none
      | some (k, r) =>
        match skipWs r with
        | ':' :: r2 =>
          match parseVal fuel r2 with
          | Option.none => Option.none
          | some (v, r3) =>
            match skipWs r3 with
            | ',' :: r4 =>
              match parseEntries fuel r4 with
              | some (es, r5) => some ((String.mk k, v) :: es, r5)
              | Option.none => Option.none
            | '\x7d' :: r4 => some ([(String.mk k, v)], r4)
            | _ => Option.none
        | _ => Option.none
    | _ => Option.none
end

/-- `json.loads`: decode one value from the text, allowing surrounding
whitespace and nothing else.  The fuel `length + 1` suffices for every
accepted input, since each recursive step consumes input. -/
def loads (s : String) : Option PyValue :=
  match parseVal (s.data.length + 1) s.data with
  | some (v, r) => if skipWs r = [] then some v else Option.none
  | Option.none => Option.none

mutual
/-- Fuel sufficient for `parseVal` to decode the serialized form of
`v`. -/
def fuelOfV : PyValue → Nat
  | PyValue.none => 2
  | PyValue.bool _ => 2
  | PyValue.int _ => 2
  | PyValue.str s => s.data.length + 2
  | PyValue.list vs => fuelOfL vs + 1
  | PyValue.dict es => fuelOfE es + 1
  | PyValue.obj _ => 2

/-- Fuel sufficient for `parseItems` on the serialized elements. -/
def fuelOfL : List PyValue → Nat
  | [] => 1
  | v :: vs => fuelOfV v + fuelOfL vs + 1

/-- Fuel sufficient for `parseEntries` on the serialized entries. -/
def fuelOfE : List (String × PyValue) → Nat
  | [] => 1
  | (k, v) :: es => k.data.length + fuelOfV v + fuelOfE es + 2
end

/-- The record `lambda_handler` returns:
`{'statusCode': 200, 'body': json.dumps('Success')}`.  It has exactly
these two fields, an integer and a string. -/
structure Response where
  statusCode : Int
  body : String
deriving DecidableEq, Repr

/-- The spec's single error kind: `json.dumps` raised because `event`
has no textual JSON encoding (CPython: `TypeError`). -/
inductive SerializationError where
  | notSerializable : SerializationError
deriving DecidableEq, Repr

/-- One `print(label, payload)` call observed on the logging sink:
a label followed by the pretty-printed serialization of the event. -/
structure LogEntry where
  label : String
  payload : String
deriving DecidableEq, Repr

/-- `json.dumps(s)` for a Python string: the quoted, escaped form. -/
def dumpsStr (s : String) : String := String.mk (strChars s)

/-- The handler `lambda_handler(event, context)` of
`lambda/handler.py`.  The logging sink is passed as explicit state
(the list of entries printed so far) and returned alongside the
result; `context` is an opaque value of an arbitrary type, taken and
ignored exactly as in the source.  `json.dumps(event, indent=2)` is
evaluated first (as the argument of `print`); if it fails the
exception propagates — nothing is printed and no response is built.
Otherwise one entry is printed and the fixed response
`{'statusCode': 200, 'body': json.dumps('Success')}` is returned. -/
def lambda_handler {Ctx : Type} (event : PyValue) (_context : Ctx)
    (log : List LogEntry) :
    Except SerializationError Response × List LogEntry :=
  match dumpsVal 0 event with
  | Option.none => (Except.error SerializationError.notSerializable, log)
  | Option.some chars =>
    (Except.ok { statusCode := 200, body := dumpsStr "Success" },
     log ++ [{ label := "Received S3 event:", payload := String.mk chars }])

/-! ### Character-level lemmas -/

theorem toNat_ofNat_valid {n : Nat} (h : Nat.isValidChar n) :
    (Char.ofNat n).toNat = n := by
  simp only [Char.ofNat, dif_pos h, Char.ofNatAux, Char.toNat]
  rfl

theorem toNat_ofNat_small {n : Nat} (h : n < 55296) :
    (Char.ofNat n).toNat = n := toNat_ofNat_valid (Or.inl h)

theorem char_valid_nat (c : Char) :
    c.toNat < 55296 ∨ (57343 < c.toNat ∧ c.toNat < 1114112) := c.valid

theorem char_eq_of_toNat_eq {c d : Char} (h : c.toNat = d.toNat) : c = d := by
  have h2 := congrArg Char.ofNat h
  simpa [Char.ofNat_toNat] using h2

theorem char_eq_iff_toNat {c d : Char} : c = d ↔ c.toNat = d.toNat :=
  ⟨fun h => by rw [h], char_eq_of_toNat_eq⟩

theorem isDigit_iff {c : Char} :
    c.isDigit = true ↔ 48 ≤ c.toNat ∧ c.toNat ≤ 57 := by
  simp [Char.isDigit, UInt32.le_def, BitVec.le_def, Char.toNat, UInt32.toNat]

theorem isWs_iff {c : Char} :
    isWs c = true ↔ c.toNat = 32 ∨ c.toNat = 9 ∨ c.toNat = 10 ∨ c.toNat = 13 := by
  simp [isWs, char_eq_iff_toNat]
  tauto

/-! ### Whitespace-skipping lemmas -/

theorem skipWs_nil : skipWs [] = [] := rfl

theorem skipWs_cons_ws {c : Char} (h : isWs c = true) (l : List Char) :
    skipWs (c :: l) = skipWs l := by
  simp [skipWs, h]

theorem skipWs_cons_not_ws {c : Char} (h : isWs c = false) (l : List Char) :
    skipWs (c :: l) = c :: l := by
  simp [skipWs, h]

theorem skipWs_append_ws {ws : List Char} (h : ∀ c ∈ ws, isWs c = true)
    (l : List Char) : skipWs (ws ++ l) = skipWs l := by
  induction ws with
  | nil => rfl
  | cons c cs ih =>
    rw [List.cons_append, skipWs_cons_ws (h c (by simp))]
    exact ih (fun d hd => h d (by simp [hd]))

theorem spaces_ws {c : Char} {n : Nat} (h : c ∈ spaces n) : isWs c = true := by
  rw [spaces] at h
  rw [List.eq_of_mem_replicate h]
  decide

theorem skipWs_spaces_append (n : Nat) (l : List Char) :
    skipWs (spaces n ++ l) = skipWs l :=
  skipWs_append_ws (fun _ h => spaces_ws h) l

/-! ### Decimal digit lemmas -/

theorem natChars_ne_nil (n : Nat) : natChars n ≠ [] := by
  rw [natChars]
  split <;> simp

theorem natChars_digits (n : Nat) : ∀ c ∈ natChars n, c.isDigit = true := by
  induction n using Nat.strong_induction_on with
  | _ n ih =>
    intro c hc
    rw [natChars] at hc
    split at hc
    · next h =>
      simp at hc
      subst hc
      rw [isDigit_iff, toNat_ofNat_small (by omega)]
      omega
    · next h =>
      simp at hc
      rcases hc with hc | hc
      · exact ih (n / 10) (by omega) c hc
      · subst hc
        rw [isDigit_iff, toNat_ofNat_small (by omega)]
        omega

theorem takeWhile_append_all {p : Char → Bool} {l : List Char}
    (h : ∀ c ∈ l, p c = true) (r : List Char) :
    (l ++ r).takeWhile p = l ++ r.takeWhile p := by
  induction l with
  | nil => rfl
  | cons c cs ih =>
    rw [List.cons_append, List.takeWhile_cons, h c (by simp)]
    simp [ih (fun d hd => h d (by simp [hd]))]

theorem dropWhile_append_all {p : Char → Bool} {l : List Char}
    (h : ∀ c ∈ l, p c = true) (r : List Char) :
    (l ++ r).dropWhile p = r.dropWhile p := by
  induction l with
  | nil => rfl
  | cons c cs ih =>
    rw [List.cons_append, List.dropWhile_cons, h c (by simp)]
    simp [ih (fun d hd => h d (by simp [hd]))]

theorem takeWhile_not_head {p : Char → Bool} : ∀ {r : List Char},
    (∀ c, r.head? = some c → p c = false) → r.takeWhile p = []
  | [], _ => rfl
  | c :: cs, h => by rw [List.takeWhile_cons, h c rfl]; simp

theorem dropWhile_not_head {p : Char → Bool} : ∀ {r : List Char},
    (∀ c, r.head? = some c → p c = false) → r.dropWhile p = r
  | [], _ => rfl
  | c :: cs, h => by rw [List.dropWhile_cons, h c rfl]; simp

/-- The head of what follows a serialized number is never a digit, so
the number parser stops exactly at the end of the number. -/
def headNotDigit (r : List Char) : Prop :=
  ∀ c, r.head? = some c → c.isDigit = false

theorem digitsVal_natChars (n : Nat) : digitsVal (natChars n) = n := by
  suffices h : ∀ m a, List.foldl (fun a c => a * 10 + (c.toNat - 48)) a (natChars m) =
      a * 10 ^ (natChars m).length + m by
    have := h n 0
    simpa [digitsVal] using this
  intro m
  induction m using Nat.strong_induction_on with
  | _ m ih =>
    intro a
    rw [natChars]
    split
    · next h =>
      simp [toNat_ofNat_small (show 48 + m < 55296 by omega)]
    · next h =>
      rw [List.foldl_append, ih (m / 10) (by omega) a]
      simp [toNat_ofNat_small (show 48 + m % 10 < 55296 by omega), pow_succ]
      ring_nf
      omega

theorem parseNatChars_natChars {r : List Char} (hr : headNotDigit r) (n : Nat) :
    parseNatChars (natChars n ++ r) = some (n, r) := by
  rw [parseNatChars,
    takeWhile_append_all (natChars_digits n) r,
    takeWhile_not_head hr,
    dropWhile_append_all (natChars_digits n) r,
    dropWhile_not_head hr]
  have hne := natChars_ne_nil n
  match h : natChars n with
  | [] => exact absurd h hne
  | c :: cs =>
    simp only [List.append_nil]
    rw [← h, digitsVal_natChars]

/-! ### Hexadecimal lemmas -/

theorem hexVal_hexDigitChar {n : Nat} (h : n < 16) :
    hexVal (hexDigitChar n) = some n := by
  rw [hexDigitChar]
  split
  · next h10 =>
    rw [hexVal]
    rw [if_pos (by rw [toNat_ofNat_small (by omega)]; omega)]
    rw [toNat_ofNat_small (by omega)]
    simp
  · next h10 =>
    rw [hexVal]
    rw [if_neg (by rw [toNat_ofNat_small (by omega)]; omega)]
    rw [if_pos (by rw [toNat_ofNat_small (by omega)]; omega)]
    rw [toNat_ofNat_small (by omega)]
    congr 1
    omega

theorem parseHex4_hex4 {n : Nat} (h : n < 65536) (r : List Char) :
    parseHex4 (hex4 n ++ r) = some (n, r) := by
  rw [hex4]
  simp only [List.cons_append, List.nil_append, parseHex4]
  rw [hexVal_hexDigitChar (by omega), hexVal_hexDigitChar (by omega),
    hexVal_hexDigitChar (by omega), hexVal_hexDigitChar (by omega)]
  simp only
  congr 2
  omega

theorem parseStringBody_escape (l : List Char) :
    ∀ (fuel : Nat) (r : List Char), l.length + 1 ≤ fuel →
    parseStringBody fuel ((List.map escapeChar l).flatten ++ '"' :: r) = some (l, r) := by
  induction l with
  | nil =>
    intro fuel r hf
    obtain ⟨f, rfl⟩ : ∃ f, fuel = f + 1 := ⟨fuel - 1, by omega⟩
    simp [parseStringBody]
  | cons c l ih =>
    intro fuel r hf
    obtain ⟨f, rfl⟩ : ∃ f, fuel = f + 1 := ⟨fuel - 1, by omega⟩
    have hih := ih f r (by simp at hf; omega)
    simp only [List.map_cons, List.flatten_cons, List.append_assoc]
    by_cases hA : c = '"'
    · subst hA; simp [escapeChar, parseStringBody, unescapeSimple, hih]
    by_cases hB : c = '\\'
    · subst hB; simp [escapeChar, parseStringBody, unescapeSimple, hih]
    by_cases hC : c.toNat = 8
    · have hc : c = '\x08' := char_eq_of_toNat_eq (by rw [hC]; decide)
      subst hc; simp [escapeChar, parseStringBody, unescapeSimple, hih]
    by_cases hD : c.toNat = 12
    · have hc : c = '\x0c' := char_eq_of_toNat_eq (by rw [hD]; decide)
      subst hc; simp [escapeChar, parseStringBody, unescapeSimple, hih]
    by_cases hE : c = '\n'
    · subst hE; simp [escapeChar, parseStringBody, unescapeSimple, hih]
    by_cases hF : c.toNat = 13
    · have hc : c = '\x0d' := char_eq_of_toNat_eq (by rw [hF]; decide)
      subst hc; simp [escapeChar, parseStringBody, unescapeSimple, hih]
    by_cases hG : c = '\t'
    · subst hG; simp [escapeChar, parseStringBody, unescapeSimple, hih]
    by_cases hH : 32 ≤ c.toNat ∧ c.toNat ≤ 126
    · rw [escapeChar, if_neg hA, if_neg hB, if_neg hC, if_neg hD, if_neg hE,
        if_neg hF, if_neg hG, if_pos hH]
      simp only [List.cons_append, List.nil_append]
      simp only [parseStringBody]
      rw [if_neg hA, if_neg hB, if_neg (by omega : ¬ c.toNat < 32), hih]
      simp
    by_cases hI : c.toNat < 65536
    · rw [escapeChar, if_neg hA, if_neg hB, if_neg hC, if_neg hD, if_neg hE,
        if_neg hF, if_neg hG, if_neg hH, if_pos hI]
      have hv := char_valid_nat c
      have hns1 : ¬(55296 ≤ c.toNat ∧ c.toNat ≤ 56319) := by omega
      have hns2 : ¬(56320 ≤ c.toNat ∧ c.toNat ≤ 57343) := by omega
      simp only [List.cons_append, List.nil_append]
      simp [parseStringBody, parseHex4_hex4 hI, hns1, hns2, hih, Char.ofNat_toNat]
    · rw [escapeChar, if_neg hA, if_neg hB, if_neg hC, if_neg hD, if_neg hE,
        if_neg hF, if_neg hG, if_neg hH, if_neg hI]
      have hv := char_valid_nat c
      have hhi : 55296 + (c.toNat - 65536) / 1024 < 65536 := by omega
      have hlo : 56320 + (c.toNat - 65536) % 1024 < 65536 := by
        have := Nat.mod_lt (c.toNat - 65536) (show 0 < 1024 by omega)
        omega
      have hhir : 55296 ≤ 55296 + (c.toNat - 65536) / 1024 ∧
          55296 + (c.toNat - 65536) / 1024 ≤ 56319 := by
        have : (c.toNat - 65536) / 1024 < 1024 := by omega
        omega
      have hlor : 56320 ≤ 56320 + (c.toNat - 65536) % 1024 ∧
          56320 + (c.toNat - 65536) % 1024 ≤ 57343 := by
        have := Nat.mod_lt (c.toNat - 65536) (show 0 < 1024 by omega)
        omega
      have harith : 65536 + (55296 + (c.toNat - 65536) / 1024 - 55296) * 1024 +
          (56320 + (c.toNat - 65536) % 1024 - 56320) = c.toNat := by
        have h1 : 1024 * ((c.toNat - 65536) / 1024) + (c.toNat - 65536) % 1024
            = c.toNat - 65536 := Nat.div_add_mod _ 1024
        omega
      have harith2 : 65536 + (c.toNat - 65536) / 1024 * 1024 + (c.toNat - 65536) % 1024
          = c.toNat := by
        have h1 : 1024 * ((c.toNat - 65536) / 1024) + (c.toNat - 65536) % 1024
            = c.toNat - 65536 := Nat.div_add_mod _ 1024
        omega
      simp only [List.cons_append, List.nil_append, List.append_assoc]
      rw [parseStringBody.eq_def]
      simp [parseHex4_hex4 hhi, parseHex4_hex4 hlo, hhir, hlor, hih, harith,
        Char.ofNat_toNat]
      rw [harith2, Char.ofNat_toNat]

mutual
theorem dumpsVal_isSome (ind : Nat) (v : PyValue) :
    (dumpsVal ind v).isSome = serializableV v := by
  match v with
  | PyValue.none | PyValue.bool true | PyValue.bool false
  | PyValue.int _ | PyValue.str _ | PyValue.obj _ =>
    simp [dumpsVal, serializableV]
  | PyValue.list [] => simp [dumpsVal, serializableV, serializableL]
  | PyValue.list (v1 :: vs) =>
    have h1 := dumpsVal_isSome (ind + 2) v1
    have h2 := dumpsTail_isSome (ind + 2) vs
    rw [dumpsVal.eq_def]
    simp only [serializableV, serializableL]
    cases hd1 : dumpsVal (ind + 2) v1 <;> cases hd2 : dumpsTail (ind + 2) vs <;>
      simp_all
  | PyValue.dict [] => simp [dumpsVal, serializableV, serializableE]
  | PyValue.dict ((k, v1) :: es) =>
    have h1 := dumpsVal_isSome (ind + 2) v1
    have h2 := dumpsETail_isSome (ind + 2) es
    rw [dumpsVal.eq_def]
    simp only [serializableV, serializableE]
    cases hd1 : dumpsVal (ind + 2) v1 <;> cases hd2 : dumpsETail (ind + 2) es <;>
      simp_all

theorem dumpsTail_isSome (ind : Nat) (vs : List PyValue) :
    (dumpsTail ind vs).isSome = serializableL vs := by
  match vs with
  | [] => simp [dumpsTail, serializableL]
  | v1 :: vs1 =>
    have h1 := dumpsVal_isSome ind v1
    have h2 := dumpsTail_isSome ind vs1
    rw [dumpsTail.eq_def]
    simp only [serializableL]
    cases hd1 : dumpsVal ind v1 <;> cases hd2 : dumpsTail ind vs1 <;> simp_all

theorem dumpsETail_isSome (ind : Nat) (es : List (String × PyValue)) :
    (dumpsETail ind es).isSome = serializableE es := by
  match es with
  | [] => simp [dumpsETail, serializableE]
  | (k, v1) :: es1 =>
    have h1 := dumpsVal_isSome ind v1
    have h2 := dumpsETail_isSome ind es1
    rw [dumpsETail.eq_def]
    simp only [serializableE]
    cases hd1 : dumpsVal ind v1 <;> cases hd2 : dumpsETail ind es1 <;> simp_all
end

theorem escapeChar_len (c : Char) : 1 ≤ (escapeChar c).length := by
  rw [escapeChar]
  repeat' split
  all_goals simp [hex4]

theorem flatten_escape_len (l : List Char) :
    l.length ≤ (List.map escapeChar l).flatten.length := by
  induction l with
  | nil => simp
  | cons c cs ih =>
    simp only [List.map_cons, List.flatten_cons, List.length_append, List.length_cons]
    have := escapeChar_len c
    omega

theorem strChars_len (s : String) : s.data.length + 2 ≤ (strChars s).length := by
  have h := flatten_escape_len s.data
  simp only [strChars, List.length_cons, List.length_append]
  omega

mutual
theorem fuelOfV_le (ind : Nat) (v : PyValue) (out : List Char)
    (h : dumpsVal ind v = some out) : fuelOfV v ≤ out.length + 1 := by
  match v with
  | PyValue.none | PyValue.bool true | PyValue.bool false =>
    simp [dumpsVal] at h
    subst h
    simp [fuelOfV]
  | PyValue.int i =>
    simp [dumpsVal] at h
    subst h
    have hne := natChars_ne_nil i.toNat
    have hlen : 1 ≤ (natChars i.toNat).length := by
      cases h2 : natChars i.toNat with
      | nil => exact absurd h2 hne
      | cons c cs => simp
    simp only [fuelOfV, intChars]
    split
    · simp
    · omega
  | PyValue.str s =>
    simp [dumpsVal] at h
    subst h
    have := strChars_len s
    rw [fuelOfV]
    omega
  | PyValue.list [] =>
    simp [dumpsVal] at h
    subst h
    simp [fuelOfV, fuelOfL]
  | PyValue.list (v1 :: vs) =>
    rw [dumpsVal.eq_def] at h
    simp only at h
    match hd1 : dumpsVal (ind + 2) v1, hd2 : dumpsTail (ind + 2) vs with
    | some first, some rest =>
      rw [hd1, hd2] at h
      simp at h
      have h1 := fuelOfV_le (ind + 2) v1 first hd1
      have h2 := fuelOfL_le (ind + 2) vs rest hd2
      subst h
      simp [fuelOfV, fuelOfL, spaces]
      omega
    | some first, Option.none => rw [hd1, hd2] at h; simp at h
    | Option.none, some rest => rw [hd1, hd2] at h; simp at h
    | Option.none, Option.none => rw [hd1, hd2] at h; simp at h
  | PyValue.dict [] =>
    simp [dumpsVal] at h
    subst h
    simp [fuelOfV, fuelOfE]
  | PyValue.dict ((k, v1) :: es) =>
    rw [dumpsVal.eq_def] at h
    simp only at h
    match hd1 : dumpsVal (ind + 2) v1, hd2 : dumpsETail (ind + 2) es with
    | some first, some rest =>
      rw [hd1, hd2] at h
      simp at h
      have h1 := fuelOfV_le (ind + 2) v1 first hd1
      have h2 := fuelOfE_le (ind + 2) es rest hd2
      have h3 := strChars_len k
      have h4 : k.length = k.data.length := rfl
      subst h
      simp [fuelOfV, fuelOfE, spaces]
      omega
    | some first, Option.none => rw [hd1, hd2] at h; simp at h
    | Option.none, some rest => rw [hd1, hd2] at h; simp at h
    | Option.none, Option.none => rw [hd1, hd2] at h; simp at h
  | PyValue.obj _ => simp [dumpsVal] at h

theorem fuelOfL_le (ind : Nat) (vs : List PyValue) (out : List Char)
    (h : dumpsTail ind vs = some out) : fuelOfL vs ≤ out.length + 1 := by
  match vs with
  | [] =>
    simp [dumpsTail] at h
    subst h
    simp [fuelOfL]
  | v1 :: vs1 =>
    rw [dumpsTail.eq_def] at h
    simp only at h
    match hd1 : dumpsVal ind v1, hd2 : dumpsTail ind vs1 with
    | some s, some rest =>
      rw [hd1, hd2] at h
      simp at h
      have h1 := fuelOfV_le ind v1 s hd1
      have h2 := fuelOfL_le ind vs1 rest hd2
      subst h
      simp [fuelOfL, spaces]
      omega
    | some s, Option.none => rw [hd1, hd2] at h; simp at h
    | Option.none, some rest => rw [hd1, hd2] at h; simp at h
    | Option.none, Option.none => rw [hd1, hd2] at h; simp at h

theorem fuelOfE_le (ind : Nat) (es : List (String × PyValue)) (out : List Char)
    (h : dumpsETail ind es = some out) : fuelOfE es ≤ out.length + 1 := by
  match es with
  | [] =>
    simp [dumpsETail] at h
    subst h
    simp [fuelOfE]
  | (k, v1) :: es1 =>
    rw [dumpsETail.eq_def] at h
    simp only at h
    match hd1 : dumpsVal ind v1, hd2 : dumpsETail ind es1 with
    | some s, some rest =>
      rw [hd1, hd2] at h
      simp at h
      have h1 := fuelOfV_le ind v1 s hd1
      have h2 := fuelOfE_le ind es1 rest hd2
      have h3 := strChars_len k
      have h4 : k.length = k.data.length := rfl
      subst h
      simp [fuelOfE, spaces]
      omega
    | some s, Option.none => rw [hd1, hd2] at h; simp at h
    | Option.none, some rest => rw [hd1, hd2] at h; simp at h
    | Option.none, Option.none => rw [hd1, hd2] at h; simp at h
end

theorem fuelOfL_pos (vs : List PyValue) : 1 ≤ fuelOfL vs := by
  cases vs with
  | nil => simp [fuelOfL]
  | cons v vs => simp [fuelOfL]

theorem fuelOfE_pos (es : List (String × PyValue)) : 1 ≤ fuelOfE es := by
  cases es with
  | nil => simp [fuelOfE]
  | cons e es => obtain ⟨k, v⟩ := e; simp [fuelOfE]

theorem fuelOfV_pos (v : PyValue) : 2 ≤ fuelOfV v := by
  cases v with
  | list vs => have := fuelOfL_pos vs; simp [fuelOfV]; omega
  | dict es => have := fuelOfE_pos es; simp [fuelOfV]; omega
  | str s => simp [fuelOfV]
  | _ => simp [fuelOfV]

theorem headNotDigit_nil : headNotDigit [] := by
  intro c hc
  simp at hc

theorem headNotDigit_cons {c : Char} (h : c.isDigit = false) (l : List Char) :
    headNotDigit (c :: l) := by
  intro d hd
  simp at hd
  subst hd
  exact h

theorem digit_not_special {d : Char} (h : d.isDigit = true) :
    ¬d = 'n' ∧ ¬d = 't' ∧ ¬d = 'f' ∧ ¬d = '"' ∧ ¬d = '[' ∧ ¬d = '\x7b' ∧
      ¬d = '-' ∧ isWs d = false ∧ ¬d = ']' ∧ ¬d = '\x7d' := by
  rw [isDigit_iff] at h
  refine ⟨?_, ?_, ?_, ?_, ?_, ?_, ?_, ?_, ?_, ?_⟩
  · intro he; subst he; revert h; decide
  · intro he; subst he; revert h; decide
  · intro he; subst he; revert h; decide
  · intro he; subst he; revert h; decide
  · intro he; subst he; revert h; decide
  · intro he; subst he; revert h; decide
  · intro he; subst he; revert h; decide
  · cases hw : isWs d with
    | false => rfl
    | true => exact absurd (isWs_iff.mp hw) (by omega)
  · intro he; subst he; revert h; decide
  · intro he; subst he; revert h; decide

theorem dumpsVal_head {ind : Nat} {v : PyValue} {out : List Char}
    (hd : dumpsVal ind v = some out) :
    ∃ c t, out = c :: t ∧ isWs c = false ∧ ¬c = ']' ∧ ¬c = '\x7d' := by
  cases v with
  | none =>
    simp [dumpsVal] at hd
    subst hd
    exact ⟨'n', _, rfl, by decide, by decide, by decide⟩
  | bool b =>
    cases b <;> simp [dumpsVal] at hd <;> subst hd
    · exact ⟨'f', _, rfl, by decide, by decide, by decide⟩
    · exact ⟨'t', _, rfl, by decide, by decide, by decide⟩
  | int i =>
    simp [dumpsVal] at hd
    subst hd
    rw [intChars]
    split
    · exact ⟨'-', _, rfl, by decide, by decide, by decide⟩
    · have hne := natChars_ne_nil i.toNat
      cases hnc : natChars i.toNat with
      | nil => exact absurd hnc hne
      | cons d ds =>
        have hdig : d.isDigit = true := natChars_digits _ d (by rw [hnc]; simp)
        have hsp := digit_not_special hdig
        exact ⟨d, ds, rfl, hsp.2.2.2.2.2.2.2.1, hsp.2.2.2.2.2.2.2.2.1,
          hsp.2.2.2.2.2.2.2.2.2⟩
  | str s =>
    simp [dumpsVal] at hd
    subst hd
    rw [strChars]
    exact ⟨'"', _, rfl, by decide, by decide, by decide⟩
  | list vs =>
    cases vs with
    | nil =>
      simp [dumpsVal] at hd
      subst hd
      exact ⟨'[', _, rfl, by decide, by decide, by decide⟩
    | cons v1 vs1 =>
      rw [dumpsVal.eq_def] at hd
      simp only at hd
      match hd1 : dumpsVal (ind + 2) v1, hd2 : dumpsTail (ind + 2) vs1 with
      | some first, some rest =>
        rw [hd1, hd2] at hd
        simp at hd
        subst hd
        exact ⟨'[', _, rfl, by decide, by decide, by decide⟩
      | some first, Option.none => rw [hd1, hd2] at hd; simp at hd
      | Option.none, some rest => rw [hd1, hd2] at hd; simp at hd
      | Option.none, Option.none => rw [hd1, hd2] at hd; simp at hd
  | dict es =>
    cases es with
    | nil =>
      simp [dumpsVal] at hd
      subst hd
      exact ⟨'\x7b', _, rfl, by decide, by decide, by decide⟩
    | cons e es1 =>
      obtain ⟨k, v1⟩ := e
      rw [dumpsVal.eq_def] at hd
      simp only at hd
      match hd1 : dumpsVal (ind + 2) v1, hd2 : dumpsETail (ind + 2) es1 with
      | some first, some rest =>
        rw [hd1, hd2] at hd
        simp at hd
        subst hd
        exact ⟨'\x7b', _, rfl, by decide, by decide, by decide⟩
      | some first, Option.none => rw [hd1, hd2] at hd; simp at hd
      | Option.none, some rest => rw [hd1, hd2] at hd; simp at hd
      | Option.none, Option.none => rw [hd1, hd2] at hd; simp at hd
  | obj s => simp [dumpsVal] at hd

theorem pyValue_sizeOf_pos (v : PyValue) : 0 < sizeOf v := by
  cases v <;> simp

theorem skipWs_ws_cons {ws : List Char} (hws : ∀ c ∈ ws, isWs c = true)
    {c : Char} (hc : isWs c = false) (l : List Char) :
    skipWs (ws ++ c :: l) = c :: l := by
  rw [skipWs_append_ws hws]
  exact skipWs_cons_not_ws hc _

theorem parseVal_bracket (f : Nat) (ws cs : List Char)
    (hws : ∀ c ∈ ws, isWs c = true) (c0 : Char) {rest2 : List Char}
    (hsk : skipWs cs = c0 :: rest2) (hc0 : ¬c0 = ']')
    (pv : List PyValue) (r : List Char)
    (hitems : parseItems f cs = some (pv, r)) :
    parseVal (f + 1) (ws ++ '[' :: cs) = some (PyValue.list pv, r) := by
  simp [parseVal, skipWs_ws_cons hws (by decide : isWs '[' = false), hsk, hitems]
  split
  · rename_i r2 heq
    rw [List.cons_eq_cons] at heq
    exact absurd heq.1 hc0
  · rfl

theorem parseVal_brace (f : Nat) (ws cs : List Char)
    (hws : ∀ c ∈ ws, isWs c = true) (c0 : Char) {rest2 : List Char}
    (hsk : skipWs cs = c0 :: rest2) (hc0 : ¬c0 = '\x7d')
    (pe : List (String × PyValue)) (r : List Char)
    (hentries : parseEntries f cs = some (pe, r)) :
    parseVal (f + 1) (ws ++ '\x7b' :: cs) = some (PyValue.dict pe, r) := by
  simp [parseVal, skipWs_ws_cons hws (by decide : isWs '\x7b' = false), hsk, hentries]
  split
  · rename_i r2 heq
    rw [List.cons_eq_cons] at heq
    exact absurd heq.1 hc0
  · rfl

mutual
theorem parseVal_dumps (v : PyValue) (ind fuel : Nat) (out ws r : List Char)
    (hs : serializableV v = true) (hd : dumpsVal ind v = some out)
    (hf : fuelOfV v ≤ fuel) (hws : ∀ c ∈ ws, isWs c = true)
    (hr : headNotDigit r) :
    parseVal fuel (ws ++ out ++ r) = some (v, r) := by
  obtain ⟨f, rfl⟩ : ∃ f, fuel = f + 1 :=
    ⟨fuel - 1, by have := fuelOfV_pos v; omega⟩
  cases v with
  | none =>
    simp [dumpsVal] at hd
    subst hd
    simp only [List.append_assoc, List.cons_append, List.nil_append]
    simp [parseVal, skipWs_ws_cons hws (by decide : isWs 'n' = false)]
  | bool b =>
    cases b <;> simp [dumpsVal] at hd <;> subst hd
    · simp only [List.append_assoc, List.cons_append, List.nil_append]
      simp [parseVal, skipWs_ws_cons hws (by decide : isWs 'f' = false)]
    · simp only [List.append_assoc, List.cons_append, List.nil_append]
      simp [parseVal, skipWs_ws_cons hws (by decide : isWs 't' = false)]
  | int i =>
    simp [dumpsVal] at hd
    subst hd
    rw [intChars]
    by_cases hi : i < 0
    · rw [if_pos hi]
      have h2 : (-(i.natAbs : Int)) = i := by omega
      have h2a : -|i| = i := by rw [Int.abs_eq_natAbs]; omega
      simp only [List.append_assoc, List.cons_append]
      simp [parseVal, skipWs_ws_cons hws (by decide : isWs '-' = false),
        parseNatChars_natChars hr, h2, h2a]
    · rw [if_neg hi]
      have hne := natChars_ne_nil i.toNat
      cases hnc : natChars i.toNat with
      | nil => exact absurd hnc hne
      | cons d ds =>
        have hdig : d.isDigit = true := natChars_digits _ d (by rw [hnc]; simp)
        have hsp := digit_not_special hdig
        have h3 : parseNatChars (d :: (ds ++ r)) = some (i.toNat, r) := by
          rw [show d :: (ds ++ r) = (d :: ds) ++ r by simp, ← hnc]
          exact parseNatChars_natChars hr i.toNat
        have h2 : ((i.toNat : Int)) = i := by omega
        simp only [List.append_assoc, List.cons_append]
        simp [parseVal, skipWs_ws_cons hws hsp.2.2.2.2.2.2.2.1, hsp.1, hsp.2.1,
          hsp.2.2.1, hsp.2.2.2.1, hsp.2.2.2.2.1, hsp.2.2.2.2.2.1,
          hsp.2.2.2.2.2.2.1, hdig, h3, h2]
  | str s =>
    simp [dumpsVal] at hd
    subst hd
    rw [strChars]
    have h2 : parseStringBody f ((List.map escapeChar s.data).flatten ++ '"' :: r) =
        some (s.data, r) := by
      apply parseStringBody_escape
      simp [fuelOfV] at hf
      have hsl2 : s.length = s.data.length := rfl
      omega
    simp only [List.append_assoc, List.cons_append, List.singleton_append]
    simp [parseVal, skipWs_ws_cons hws (by decide : isWs '"' = false), h2]
  | list vs =>
    cases vs with
    | nil =>
      simp [dumpsVal] at hd
      subst hd
      have h2 : skipWs (']' :: r) = ']' :: r := skipWs_cons_not_ws (by decide) _
      simp only [List.append_assoc, List.cons_append, List.nil_append]
      simp [parseVal, skipWs_ws_cons hws (by decide : isWs '[' = false), h2]
    | cons v1 vs1 =>
      rw [dumpsVal.eq_def] at hd
      simp only at hd
      match hd1 : dumpsVal (ind + 2) v1, hd2 : dumpsTail (ind + 2) vs1 with
      | some first, some outt =>
        rw [hd1, hd2] at hd
        simp at hd
        subst hd
        simp only [serializableV, serializableL, Bool.and_eq_true] at hs
        obtain ⟨hs1, hsl⟩ := hs
        have hfl : fuelOfL (v1 :: vs1) ≤ f := by
          simp only [fuelOfV] at hf
          omega
        have hws2 : ∀ c ∈ ('\n' :: spaces (ind + 2) : List Char), isWs c = true := by
          intro c hc
          simp at hc
          rcases hc with h | h
          · subst h; decide
          · exact spaces_ws h
        have happ := parseItems_dumps v1 vs1 (ind + 2) ind f first outt
          ('\n' :: spaces (ind + 2)) r hs1 hsl hd1 hd2 hfl hws2
        obtain ⟨c0, t0, hfirst, hc0ws, hc0b, hc0br⟩ := dumpsVal_head hd1
        subst hfirst
        simp only [List.append_assoc, List.cons_append, List.nil_append] at happ ⊢
        exact parseVal_bracket f ws _ hws c0
          (by
            rw [skipWs_cons_ws (by decide)]
            exact skipWs_ws_cons (fun _ h => spaces_ws h) hc0ws _)
          hc0b _ r happ
      | some first, Option.none => rw [hd1, hd2] at hd; simp at hd
      | Option.none, some outt => rw [hd1, hd2] at hd; simp at hd
      | Option.none, Option.none => rw [hd1, hd2] at hd; simp at hd
  | dict es =>
    rcases es with _ | ⟨⟨k1, v1⟩, es1⟩
    · simp [dumpsVal] at hd
      subst hd
      have h2 : skipWs ('\x7d' :: r) = '\x7d' :: r := skipWs_cons_not_ws (by decide) _
      simp only [List.append_assoc, List.cons_append, List.nil_append]
      simp [parseVal, skipWs_ws_cons hws (by decide : isWs '\x7b' = false), h2]
    · rw [dumpsVal.eq_def] at hd
      simp only at hd
      match hd1 : dumpsVal (ind + 2) v1, hd2 : dumpsETail (ind + 2) es1 with
      | some first, some outt =>
        rw [hd1, hd2] at hd
        simp at hd
        subst hd
        simp only [serializableV, serializableE, Bool.and_eq_true] at hs
        obtain ⟨hs1, hse⟩ := hs
        have hfe : fuelOfE ((k1, v1) :: es1) ≤ f := by
          simp only [fuelOfV] at hf
          omega
        have hws2 : ∀ c ∈ ('\n' :: spaces (ind + 2) : List Char), isWs c = true := by
          intro c hc
          simp at hc
          rcases hc with h | h
          · subst h; decide
          · exact spaces_ws h
        have happ := parseEntries_dumps k1 v1 es1 (ind + 2) ind f first outt
          ('\n' :: spaces (ind + 2)) r hs1 hse hd1 hd2 hfe hws2
        simp only [strChars, List.append_assoc, List.cons_append, List.singleton_append,
          List.nil_append] at happ ⊢
        exact parseVal_brace f ws _ hws '"'
          (by
            rw [skipWs_cons_ws (by decide)]
            exact skipWs_ws_cons (fun _ h => spaces_ws h) (by decide) _)
          (by decide) _ r happ
      | some first, Option.none => rw [hd1, hd2] at hd; simp at hd
      | Option.none, some outt => rw [hd1, hd2] at hd; simp at hd
      | Option.none, Option.none => rw [hd1, hd2] at hd; simp at hd
  | obj s => simp [dumpsVal] at hd
termination_by fuel
decreasing_by
  all_goals omega

theorem parseItems_dumps (v : PyValue) (vs : List PyValue) (ind j fuel : Nat)
    (outv outt ws r : List Char)
    (hs : serializableV v = true) (hsl : serializableL vs = true)
    (hdv : dumpsVal ind v = some outv) (hdt : dumpsTail ind vs = some outt)
    (hf : fuelOfL (v :: vs) ≤ fuel) (hws : ∀ c ∈ ws, isWs c = true) :
    parseItems fuel (ws ++ outv ++ outt ++ '\n' :: (spaces j ++ ']' :: r)) =
      some (v :: vs, r) := by
  obtain ⟨f, rfl⟩ : ∃ f, fuel = f + 1 :=
    ⟨fuel - 1, by have := fuelOfL_pos (v :: vs); omega⟩
  have hfv : fuelOfV v ≤ f := by
    simp only [fuelOfL] at hf
    have := fuelOfL_pos vs
    omega
  cases vs with
  | nil =>
    simp [dumpsTail] at hdt
    subst hdt
    have hT1 := parseVal_dumps v ind f outv ws ('\n' :: (spaces j ++ ']' :: r))
      hs hdv hfv hws (headNotDigit_cons (by decide) _)
    have hskip : skipWs ('\n' :: (spaces j ++ ']' :: r)) = ']' :: r := by
      rw [skipWs_cons_ws (by decide)]
      exact skipWs_ws_cons (fun _ h => spaces_ws h) (by decide) _
    simp only [List.append_assoc, List.cons_append, List.nil_append,
      List.append_nil] at hT1 ⊢
    simp [parseItems, hT1, hskip]
  | cons v2 vs2 =>
    rw [dumpsTail.eq_def] at hdt
    simp only at hdt
    match hd2v : dumpsVal ind v2, hd2t : dumpsTail ind vs2 with
    | some outv2, some outt2 =>
      rw [hd2v, hd2t] at hdt
      simp at hdt
      subst hdt
      simp only [serializableL, Bool.and_eq_true] at hsl
      obtain ⟨hs2, hsl2⟩ := hsl
      have hws2 : ∀ c ∈ ('\n' :: spaces ind : List Char), isWs c = true := by
        intro c hc
        simp at hc
        rcases hc with h | h
        · subst h; decide
        · exact spaces_ws h
      have hrec := parseItems_dumps v2 vs2 ind j f outv2 outt2
        ('\n' :: spaces ind) r hs2 hsl2 hd2v hd2t
        (by
          simp only [fuelOfL] at hf ⊢
          have := fuelOfV_pos v
          omega)
        hws2
      have hT1 := parseVal_dumps v ind f outv ws
        (',' :: '\n' :: (spaces ind ++ (outv2 ++ (outt2 ++ '\n' :: (spaces j ++ (']' :: r))))))
        hs hdv hfv hws (headNotDigit_cons (by decide) _)
      simp only [List.append_assoc, List.cons_append, List.nil_append] at hT1 hrec ⊢
      have hskip : skipWs
          (',' :: '\n' :: (spaces ind ++ (outv2 ++ (outt2 ++ '\n' :: (spaces j ++ (']' :: r)))))) =
          ',' :: '\n' :: (spaces ind ++ (outv2 ++ (outt2 ++ '\n' :: (spaces j ++ (']' :: r))))) :=
        skipWs_cons_not_ws (by decide) _
      simp [parseItems, hT1, hskip, hrec]
    | some outv2, Option.none => rw [hd2v, hd2t] at hdt; simp at hdt
    | Option.none, some outt2 => rw [hd2v, hd2t] at hdt; simp at hdt
    | Option.none, Option.none => rw [hd2v, hd2t] at hdt; simp at hdt
termination_by fuel
decreasing_by
  all_goals omega

theorem parseEntries_dumps (k : String) (v : PyValue) (es : List (String × PyValue))
    (ind j fuel : Nat) (outv outt ws r : List Char)
    (hs : serializableV v = true) (hse : serializableE es = true)
    (hdv : dumpsVal ind v = some outv) (hdt : dumpsETail ind es = some outt)
    (hf : fuelOfE ((k, v) :: es) ≤ fuel) (hws : ∀ c ∈ ws, isWs c = true) :
    parseEntries fuel
      (ws ++ strChars k ++ ':' :: ' ' ::
        (outv ++ outt ++ '\n' :: (spaces j ++ '\x7d' :: r))) =
      some ((k, v) :: es, r) := by
  obtain ⟨f, rfl⟩ : ∃ f, fuel = f + 1 :=
    ⟨fuel - 1, by have := fuelOfE_pos ((k, v) :: es); omega⟩
  have hfv : fuelOfV v ≤ f := by
    simp only [fuelOfE] at hf
    have := fuelOfE_pos es
    omega
  have hkf : k.data.length + 1 ≤ f := by
    simp only [fuelOfE] at hf
    have h1 := fuelOfV_pos v
    have h2 := fuelOfE_pos es
    omega
  have hwsp : ∀ c ∈ ([' '] : List Char), isWs c = true := by
    intro c hc
    simp at hc
    subst hc
    decide
  rcases es with _ | ⟨⟨k2, v2⟩, es2⟩
  · simp [dumpsETail] at hdt
    subst hdt
    have hT1 := parseVal_dumps v ind f outv [' ']
      ('\n' :: (spaces j ++ '\x7d' :: r)) hs hdv hfv hwsp
      (headNotDigit_cons (by decide) _)
    have hskip2 : skipWs ('\n' :: (spaces j ++ '\x7d' :: r)) = '\x7d' :: r := by
      rw [skipWs_cons_ws (by decide)]
      exact skipWs_ws_cons (fun _ h => spaces_ws h) (by decide) _
    have hkey := parseStringBody_escape k.data f
      (':' :: ' ' :: (outv ++ ('\n' :: (spaces j ++ ('\x7d' :: r))))) hkf
    simp only [strChars, List.append_assoc, List.cons_append, List.singleton_append,
      List.nil_append, List.append_nil] at hT1 hkey ⊢
    simp [parseEntries, skipWs_ws_cons hws (by decide : isWs '"' = false), hkey,
      skipWs_cons_not_ws (by decide : isWs ':' = false), hT1, hskip2]
  · rw [dumpsETail.eq_def] at hdt
    simp only at hdt
    match hd2v : dumpsVal ind v2, hd2t : dumpsETail ind es2 with
    | some outv2, some outt2 =>
      rw [hd2v, hd2t] at hdt
      simp at hdt
      subst hdt
      simp only [serializableE, Bool.and_eq_true] at hse
      obtain ⟨hs2, hse2⟩ := hse
      have hws2 : ∀ c ∈ ('\n' :: spaces ind : List Char), isWs c = true := by
        intro c hc
        simp at hc
        rcases hc with h | h
        · subst h; decide
        · exact spaces_ws h
      have hrec := parseEntries_dumps k2 v2 es2 ind j f outv2 outt2
        ('\n' :: spaces ind) r hs2 hse2 hd2v hd2t
        (by
          simp only [fuelOfE] at hf ⊢
          have := fuelOfV_pos v
          omega)
        hws2
      have hT1 := parseVal_dumps v ind f outv [' ']
        (',' :: '\n' :: (spaces ind ++ (strChars k2 ++ ':' :: ' ' ::
          (outv2 ++ (outt2 ++ '\n' :: (spaces j ++ ('\x7d' :: r)))))))
        hs hdv hfv hwsp (headNotDigit_cons (by decide) _)
      have hkey := parseStringBody_escape k.data f
        (':' :: ' ' :: (outv ++ (',' :: '\n' :: (spaces ind ++ (strChars k2 ++ ':' :: ' ' ::
          (outv2 ++ (outt2 ++ '\n' :: (spaces j ++ ('\x7d' :: r))))))))) hkf
      simp only [strChars, List.append_assoc, List.cons_append, List.singleton_append,
        List.nil_append] at hT1 hkey hrec ⊢
      simp [parseEntries, skipWs_ws_cons hws (by decide : isWs '"' = false), hkey,
        skipWs_cons_not_ws (by decide : isWs ':' = false), hT1,
        skipWs_cons_not_ws (by decide : isWs ',' = false), hrec]
    | some outv2, Option.none => rw [hd2v, hd2t] at hdt; simp at hdt
    | Option.none, some outt2 => rw [hd2v, hd2t] at hdt; simp at hdt
    | Option.none, Option.none => rw [hd2v, hd2t] at hdt; simp at hdt
termination_by fuel
decreasing_by
  all_goals omega
end

/-- Any output of the serializer decodes back to the value it was
produced from: `json.loads(json.dumps(v, indent=2)) == v`. -/
theorem loads_dumpsVal {v : PyValue} {out : List Char}
    (h : dumpsVal 0 v = some out) : loads (String.mk out) = some v := by
  have hs : serializableV v = true := by
    have hiso := dumpsVal_isSome 0 v
    rw [h] at hiso
    simp at hiso
    exact hiso
  have hf := fuelOfV_le 0 v out h
  have hT1 := parseVal_dumps v 0 (out.length + 1) out [] [] hs h (by omega)
    (by intro c hc; simp at hc) headNotDigit_nil
  simp only [List.nil_append, List.append_nil] at hT1
  rw [loads]
  show (match parseVal (out.length + 1) out with
    | some (v, r) => if skipWs r = [] then some v else Option.none
    | Option.none => Option.none) = some v
  rw [hT1]
  simp [skipWs]

/-! ### Claim theorems -/

/-- C1: for every serializable `event` and every `context`,
`lambda_handler` returns the fixed record
`{'statusCode': 200, 'body': json.dumps('Success')}`; the right-hand
side is a constant, so the result depends neither on the content of
`event` nor on `context`. -/
theorem handler_returns_fixed_response {Ctx : Type} (event : PyValue) (ctx : Ctx)
    (log : List LogEntry) (h : serializableV event = true) :
    (lambda_handler event ctx log).1 =
      Except.ok { statusCode := 200, body := dumpsStr "Success" } := by
  have hiso := dumpsVal_isSome 0 event
  rw [h] at hiso
  obtain ⟨chars, hc⟩ := Option.isSome_iff_exists.mp hiso
  simp [lambda_handler, hc]

theorem handler_returns_fixed_response_witness :
    serializableV (PyValue.dict []) = true ∧
    (lambda_handler (PyValue.dict []) (0 : Nat) []).1 =
      Except.ok { statusCode := 200, body := dumpsStr "Success" } :=
  ⟨rfl, handler_returns_fixed_response (PyValue.dict []) 0 [] rfl⟩

/-- C2: for every non-serializable `event`, `lambda_handler` raises the
serialization error (the `TypeError` from `json.dumps`): the result is
`Except.error`, so no `Response` is produced, and the error is not
caught anywhere in the handler. -/
theorem handler_raises_on_nonserializable {Ctx : Type} (event : PyValue)
    (ctx : Ctx) (log : List LogEntry) (h : serializableV event = false) :
    (lambda_handler event ctx log).1 =
      Except.error SerializationError.notSerializable := by
  have hiso := dumpsVal_isSome 0 event
  rw [h] at hiso
  have hn : dumpsVal 0 event = Option.none := by
    cases hd : dumpsVal 0 event with
    | none => rfl
    | some chars => rw [hd] at hiso; simp at hiso
  simp [lambda_handler, hn]

theorem handler_raises_on_nonserializable_witness :
    serializableV (PyValue.obj "set") = false ∧
    (lambda_handler (PyValue.obj "set") (0 : Nat) []).1 =
      Except.error SerializationError.notSerializable :=
  ⟨rfl, handler_raises_on_nonserializable (PyValue.obj "set") 0 [] rfl⟩

/-- C3: for every serializable `event`, one invocation emits exactly
one log entry, and the pretty-printed serialization in that entry
deserializes (via `json.loads`) back to the original `event`. -/
theorem handler_log_roundtrip {Ctx : Type} (event : PyValue) (ctx : Ctx)
    (log : List LogEntry) (h : serializableV event = true) :
    ∃ e : LogEntry, (lambda_handler event ctx log).2 = log ++ [e] ∧
      e.label = "Received S3 event:" ∧ loads e.payload = some event := by
  have hiso := dumpsVal_isSome 0 event
  rw [h] at hiso
  obtain ⟨chars, hc⟩ := Option.isSome_iff_exists.mp hiso
  refine ⟨⟨"Received S3 event:", String.mk chars⟩, ?_, rfl, ?_⟩
  · simp [lambda_handler, hc]
  · exact loads_dumpsVal hc

theorem handler_log_roundtrip_witness :
    serializableV (PyValue.dict [("a", PyValue.int 1)]) = true ∧
    ∃ e : LogEntry,
      (lambda_handler (PyValue.dict [("a", PyValue.int 1)]) (0 : Nat) []).2 = [] ++ [e] ∧
      e.label = "Received S3 event:" ∧
      loads e.payload = some (PyValue.dict [("a", PyValue.int 1)]) :=
  ⟨rfl, handler_log_roundtrip (PyValue.dict [("a", PyValue.int 1)]) 0 [] rfl⟩

/-- C4: modelling the logging sink as explicit state, a successful
invocation appends exactly one entry to it and leaves the entries that
were already present unchanged; the returned state already contains
the entry, i.e. the emission happens before the response is handed
back. -/
theorem handler_appends_one_entry {Ctx : Type} (event : PyValue) (ctx : Ctx)
    (log : List LogEntry) (h : serializableV event = true) :
    ∃ e : LogEntry, (lambda_handler event ctx log).2 = log ++ [e] := by
  have hiso := dumpsVal_isSome 0 event
  rw [h] at hiso
  obtain ⟨chars, hc⟩ := Option.isSome_iff_exists.mp hiso
  exact ⟨⟨"Received S3 event:", String.mk chars⟩, by simp [lambda_handler, hc]⟩

theorem handler_appends_one_entry_witness :
    serializableV PyValue.none = true ∧
    ∃ e : LogEntry,
      (lambda_handler PyValue.none (0 : Nat) [⟨"x", "y"⟩]).2 = [⟨"x", "y"⟩] ++ [e] :=
  ⟨rfl, handler_appends_one_entry PyValue.none 0 [⟨"x", "y"⟩] rfl⟩

/-- C5: for the empty mapping and any context, the result is exactly
`{'statusCode': 200, 'body': "\"Success\""}` — the body is the quoted
JSON string encoding of `Success`, quotes included. -/
theorem handler_empty_event_response {Ctx : Type} (ctx : Ctx) (log : List LogEntry) :
    (lambda_handler (PyValue.dict []) ctx log).1 =
      Except.ok { statusCode := 200, body := "\"Success\"" } := rfl

/-- C6: two invocations with the same serializable `event` (any
contexts, any prior log states) return equal responses and log entries
with identical content. -/
theorem handler_deterministic {Ctx1 Ctx2 : Type} (event : PyValue)
    (c1 : Ctx1) (c2 : Ctx2) (log1 log2 : List LogEntry)
    (h : serializableV event = true) :
    (lambda_handler event c1 log1).1 = (lambda_handler event c2 log2).1 ∧
    ∃ e : LogEntry, (lambda_handler event c1 log1).2 = log1 ++ [e] ∧
      (lambda_handler event c2 log2).2 = log2 ++ [e] := by
  have hiso := dumpsVal_isSome 0 event
  rw [h] at hiso
  obtain ⟨chars, hc⟩ := Option.isSome_iff_exists.mp hiso
  refine ⟨?_, ⟨⟨"Received S3 event:", String.mk chars⟩, ?_, ?_⟩⟩ <;>
    simp [lambda_handler, hc]

theorem handler_deterministic_witness :
    serializableV (PyValue.list [PyValue.int 1]) = true ∧
    ((lambda_handler (PyValue.list [PyValue.int 1]) (0 : Nat) []).1 =
        (lambda_handler (PyValue.list [PyValue.int 1]) true [⟨"a", "b"⟩]).1 ∧
      ∃ e : LogEntry,
        (lambda_handler (PyValue.list [PyValue.int 1]) (0 : Nat) []).2 = [] ++ [e] ∧
        (lambda_handler (PyValue.list [PyValue.int 1]) true [⟨"a", "b"⟩]).2 =
          [⟨"a", "b"⟩] ++ [e]) :=
  ⟨rfl, handler_deterministic (PyValue.list [PyValue.int 1]) 0 true [] [⟨"a", "b"⟩] rfl⟩

/-- C7: every successful result of `lambda_handler` is a record built
from exactly an integer `statusCode` and a string `body` — the
`Response` structure has exactly these two fields. -/
theorem handler_response_shape {Ctx : Type} (event : PyValue) (ctx : Ctx)
    (log : List LogEntry) (r : Response)
    (_h : (lambda_handler event ctx log).1 = Except.ok r) :
    ∃ (n : Int) (b : String), r = { statusCode := n, body := b } :=
  ⟨r.statusCode, r.body, rfl⟩

theorem handler_response_shape_witness :
    (lambda_handler (PyValue.dict []) (0 : Nat) []).1 =
      Except.ok { statusCode := 200, body := "\"Success\"" } ∧
    ∃ (n : Int) (b : String),
      ({ statusCode := 200, body := "\"Success\"" } : Response) =
        { statusCode := n, body := b } :=
  ⟨rfl, handler_response_shape (PyValue.dict []) 0 [] _ rfl⟩

/-- C8: the handler neither stores the `event` value nor reads the
`context`: the whole result (response and final log) depends on
`event` only through its serialized text, and not at all on the
context argument, which may even have a different type.  (The `event`
value itself is immutable in the model; only its serialization
reaches the output.) -/
theorem handler_no_retention {Ctx1 Ctx2 : Type} (e1 e2 : PyValue)
    (c1 : Ctx1) (c2 : Ctx2) (log : List LogEntry)
    (h : dumpsVal 0 e1 = dumpsVal 0 e2) :
    lambda_handler e1 c1 log = lambda_handler e2 c2 log := by
  unfold lambda_handler
  rw [h]

theorem handler_no_retention_witness :
    dumpsVal 0 PyValue.none = dumpsVal 0 PyValue.none ∧
    lambda_handler PyValue.none (0 : Nat) [] = lambda_handler PyValue.none true [] :=
  ⟨rfl, handler_no_retention PyValue.none PyValue.none 0 true [] rfl⟩

/-- C9: on the whole JSON value domain (`None`, booleans, numbers,
strings, lists and string-keyed dicts — exactly the serializable
values) the handler returns normally with some `Response`; the error
branch is unreachable under this precondition. -/
theorem handler_total_on_json_domain {Ctx : Type} (event : PyValue) (ctx : Ctx)
    (log : List LogEntry) (h : serializableV event = true) :
    ∃ r : Response, (lambda_handler event ctx log).1 = Except.ok r := by
  have hiso := dumpsVal_isSome 0 event
  rw [h] at hiso
  obtain ⟨chars, hc⟩ := Option.isSome_iff_exists.mp hiso
  refine ⟨{ statusCode := 200, body := dumpsStr "Success" }, ?_⟩
  simp [lambda_handler, hc]

theorem handler_total_on_json_domain_witness :
    serializableV (PyValue.str "hé😀") = true ∧
    ∃ r : Response, (lambda_handler (PyValue.str "hé😀") (0 : Nat) []).1 =
      Except.ok r :=
  ⟨rfl, handler_total_on_json_domain (PyValue.str "hé😀") 0 [] rfl⟩

/-- C10: when serialization fails, the failure happens before anything
is printed: the invocation leaves the log state exactly unchanged and
yields the error. -/
theorem handler_error_log_unchanged {Ctx : Type} (event : PyValue) (ctx : Ctx)
    (log : List LogEntry) (h : serializableV event = false) :
    (lambda_handler event ctx log).2 = log ∧
    (lambda_handler event ctx log).1 =
      Except.error SerializationError.notSerializable := by
  have hiso := dumpsVal_isSome 0 event
  rw [h] at hiso
  have hn : dumpsVal 0 event = Option.none := by
    cases hd : dumpsVal 0 event with
    | none => rfl
    | some chars => rw [hd] at hiso; simp at hiso
  constructor <;> simp [lambda_handler, hn]

theorem handler_error_log_unchanged_witness :
    serializableV (PyValue.list [PyValue.obj "datetime"]) = false ∧
    ((lambda_handler (PyValue.list [PyValue.obj "datetime"]) (0 : Nat)
        [⟨"x", "y"⟩]).2 = [⟨"x", "y"⟩] ∧
      (lambda_handler (PyValue.list [PyValue.obj "datetime"]) (0 : Nat)
        [⟨"x", "y"⟩]).1 = Except.error SerializationError.notSerializable) :=
  ⟨rfl, handler_error_log_unchanged (PyValue.list [PyValue.obj "datetime"]) 0
    [⟨"x", "y"⟩] rfl⟩
